import Mathlib

/-!
# Resampling Risk Simulator — formal model

A shallow embedding of the Monte Carlo Kelly risk-sizing kernel of
`rookie_analysis.py` (`analysis_8_monte_carlo_kelly`, the only routine the
specification covers).  Returns and portfolio values are modelled as exact
rationals; an IEEE result that is not a finite real number (the `0/0 = NaN`
that numpy produces when a running maximum is zero) is modelled as `none`.
-/

set_option autoImplicit false

namespace MonteCarloKelly

/-- Modelled from the spec: the external pseudo-random generator
(`np.random.default_rng(seed)`) is not repository code; the spec only
requires a deterministic generator fully determined by the seed, whose
stream of draws is reproduced exactly by re-seeding.  Modelled as a 64-bit
linear congruential generator.  Initial state from the seed. -/
def rngInit (seed : Nat) : Nat := seed % 2 ^ 64

/-- Modelled from the spec: one step of the deterministic generator. -/
def rngNext (s : Nat) : Nat :=
  (6364136223846793005 * s + 1442695040888963407) % 2 ^ 64

/-- `rng.choice(returns, size=k, replace=True)`: draw `k` values uniformly
with replacement from `returns`, threading the generator state.  Each draw
picks the element at index `state % length`. -/
def rngChoice (returns : List ℚ) : Nat → Nat → List ℚ × Nat
  | 0, s => ([], s)
  | k + 1, s =>
    let s2 := rngNext s
    let q := rngChoice returns k s2
    (returns.getD (s2 % returns.length) 0 :: q.1, q.2)

/-- Running-product helper for `np.cumprod`: `acc` is the product of the
factors consumed so far. -/
def cumprodAux (acc : ℚ) : List ℚ → List ℚ
  | [] => []
  | x :: xs => acc * x :: cumprodAux (acc * x) xs

/-- `equity = np.cumprod(1 + sampled * f)` (source line 827): the equity
trajectory of one trial, starting from an initial equity of 1.0 that is not
itself part of the output array. -/
def equity (sampled : List ℚ) (f : ℚ) : List ℚ :=
  cumprodAux 1 (sampled.map (fun r => 1 + r * f))

/-- Helper for `np.maximum.accumulate`: `m` is the maximum seen so far. -/
def runMaxAux (m : ℚ) : List ℚ → List ℚ
  | [] => []
  | y :: ys => max m y :: runMaxAux (max m y) ys

/-- `running_max = np.maximum.accumulate(equity)` (source line 828): the
running maximum is seeded with the first trajectory value. -/
def running_max : List ℚ → List ℚ
  | [] => []
  | x :: xs => runMaxAux x (x :: xs)

/-- One entry of `(running_max - equity) / running_max` (source line 829).
When the running maximum is `0` the IEEE quotient `0/0` is NaN, not a real
number; this is modelled as `none`. -/
def ddStep (m e : ℚ) : Option ℚ :=
  if m = 0 then none else some ((m - e) / m)

/-- `drawdown = (running_max - equity) / running_max` (source line 829),
elementwise over the trajectory. -/
def drawdown (curve : List ℚ) : List (Option ℚ) :=
  List.zipWith ddStep (running_max curve) curve

/-- Pairwise reduction of `np.max`: NaN (`none`) propagates. -/
def combineMax : Option ℚ → Option ℚ → Option ℚ
  | some a, some b => some (max a b)
  | _, _ => none

/-- `drawdown.max()` (source line 830): the maximum of the per-step
drawdowns; NaN anywhere makes the result NaN. -/
def npMax : List (Option ℚ) → Option ℚ
  | [] => none
  | x :: xs => xs.foldl combineMax x

/-- The per-trial recorded maximum drawdown (source line 830). -/
def max_drawdown (sampled : List ℚ) (f : ℚ) : Option ℚ :=
  npMax (drawdown (equity sampled f))

/-- `equity[-1] - 1` (source line 831): the final return of one trial. -/
def final_return (curve : List ℚ) : ℚ := curve.getLastD 1 - 1

/-- `n_trades_per_sim = min(200, len(returns))` (source line 817): the
number of bootstrap draws composing one trajectory. -/
def n_trades_per_sim (returns : List ℚ) : Nat := min 200 returns.length

/-- The trial loop (source lines 823-831): run `B` independent bootstrap
trials, each drawing `n` values and computing its equity trajectory, with
one generator state threaded through all trials in order. -/
def runTrials (returns : List ℚ) (n : Nat) (f : ℚ) : Nat → Nat → List (List ℚ) × Nat
  | 0, s => ([], s)
  | b + 1, s =>
    let p := rngChoice returns n s
    let q := runTrials returns n f b p.2
    (equity p.1 f :: q.1, q.2)

/-- Extract a list of rationals from a list of IEEE values, failing (NaN)
if any entry is NaN. -/
def seqOpt : List (Option ℚ) → Option (List ℚ)
  | [] => some []
  | none :: _ => none
  | some v :: xs => (seqOpt xs).map (fun r => v :: r)

/-- `np.percentile(a, q)` with the default linear interpolation: sort, take
the virtual index `(n-1)*q/100`, and interpolate between its neighbours. -/
def percentile (l : List ℚ) (q : ℚ) : ℚ :=
  let s := l.mergeSort (fun a b => decide (a ≤ b))
  match s with
  | [] => 0
  | _ =>
    let h : ℚ := ((s.length - 1 : Nat) : ℚ) * q / 100
    let i : Nat := (Int.toNat ⌊h⌋)
    let lo := s.getD i 0
    let hi := s.getD (min (i + 1) (s.length - 1)) 0
    lo + (h - (i : ℚ)) * (hi - lo)

/-- `np.percentile` over IEEE values: NaN anywhere gives NaN. -/
def percentileOpt (l : List (Option ℚ)) (q : ℚ) : Option ℚ :=
  (seqOpt l).map (fun v => percentile v q)

/-- The aggregate summary of one batch (spec `BatchSummary`): drawdown
percentiles (source lines 842-843), return percentiles (source lines
901-903) and the profitable fraction (source line 856-858). -/
structure BatchSummary where
  medianDrawdown : Option ℚ
  p95Drawdown : Option ℚ
  p5Return : ℚ
  medianReturn : ℚ
  p95Return : ℚ
  profitableFraction : ℚ

/-- The spec operation `simulateBatch(returns, T, B, f, seed)`: the trial
loop of source lines 822-831 followed by the percentile aggregation. -/
def simulateBatch (returns : List ℚ) (T B : Nat) (f : ℚ) (seed : Nat) : BatchSummary :=
  let curves := (runTrials returns T f B (rngInit seed)).1
  let max_drawdowns := curves.map (fun c => npMax (drawdown c))
  let final_returns := curves.map final_return
  { medianDrawdown := percentileOpt max_drawdowns 50
    p95Drawdown := percentileOpt max_drawdowns 95
    p5Return := percentile final_returns 5
    medianReturn := percentile final_returns 50
    p95Return := percentile final_returns 95
    profitableFraction :=
      ((final_returns.filter (fun x => decide (0 ≤ x))).length : ℚ) / final_returns.length }

/-- One row of the Kelly-fraction sensitivity sweep. -/
structure FractionSummary where
  fraction : ℚ
  medianReturn : ℚ
  p5Return : ℚ
  p95Return : ℚ

/-- The spec operation `sweepStakeFraction` (source lines 884-903): for each
fraction in order, run `B` trials — with the single generator `rng3`
threaded across fractions, as in the source — and record the median, 5th
and 95th percentiles of the final returns. -/
def sweepStakeFraction (returns : List ℚ) (n B : Nat) : List ℚ → Nat → List FractionSummary
  | [], _ => []
  | kf :: rest, s =>
    let p := runTrials returns n kf B s
    let finals := p.1.map final_return
    { fraction := kf
      medianReturn := percentile finals 50
      p5Return := percentile finals 5
      p95Return := percentile finals 95 } :: sweepStakeFraction returns n B rest p.2

/-- Outcome of the analysis entry point: either the guard fires (the source
prints a warning and returns before any simulation work) or a batch summary
is produced. -/
inductive AnalysisOutcome where
  | insufficientData : AnalysisOutcome
  | completed : BatchSummary → AnalysisOutcome

/-- `analysis_8_monte_carlo_kelly` (source lines 766-831): the entry guard
`if len(df) < 100: ... return` (source lines 796-798) precedes the
construction of the 5000-trial batch at a 5% stake fraction with seed 42. -/
def analysis_8_monte_carlo_kelly (tradeReturns : List ℚ) : AnalysisOutcome :=
  if tradeReturns.length < 100 then AnalysisOutcome.insufficientData
  else AnalysisOutcome.completed
    (simulateBatch tradeReturns (n_trades_per_sim tradeReturns) 5000 (1 / 20) 42)

/-- The equity trajectories of the main 5000-trial batch (source lines
822-831), seeded with `default_rng(42)` at a 5% stake fraction. -/
def main_batch_curves (returns : List ℚ) : List (List ℚ) :=
  (runTrials returns (n_trades_per_sim returns) (1 / 20) 5000 (rngInit 42)).1

/-- The 50 sample equity curves recomputed for the JSON export (source lines
923-928) with a fresh generator `default_rng(42)`, before display rounding. -/
def equity_curves_export (returns : List ℚ) : List (List ℚ) :=
  (runTrials returns (n_trades_per_sim returns) (1 / 20) 50 (rngInit 42)).1

/-! ## Helper lemmas -/

lemma cumprodAux_length : ∀ (l : List ℚ) (a : ℚ), (cumprodAux a l).length = l.length
  | [], _ => rfl
  | x :: xs, a => by simp [cumprodAux, cumprodAux_length xs]

lemma equity_length (sampled : List ℚ) (f : ℚ) :
    (equity sampled f).length = sampled.length := by
  simp [equity, cumprodAux_length]

lemma cumprodAux_get : ∀ (l : List ℚ) (a : ℚ) (i : Nat) (h : i < (cumprodAux a l).length),
    (cumprodAux a l).get ⟨i, h⟩ = a * (l.take (i + 1)).prod
  | [], a, i, h => by simp [cumprodAux] at h
  | x :: xs, a, 0, h => by simp [cumprodAux]
  | x :: xs, a, i + 1, h => by
    have ih := cumprodAux_get xs (a * x) i (by simpa [cumprodAux] using h)
    simp only [cumprodAux, List.get_cons_succ, List.take_succ_cons, List.prod_cons] at ih ⊢
    rw [ih, mul_assoc]

lemma cumprodAux_mem_nonneg : ∀ (l : List ℚ) (a : ℚ), 0 ≤ a → (∀ x ∈ l, 0 ≤ x) →
    ∀ e ∈ cumprodAux a l, 0 ≤ e
  | [], _, _, _, e, he => by simp [cumprodAux] at he
  | x :: xs, a, ha, hl, e, he => by
    have hax : 0 ≤ a * x := mul_nonneg ha (hl x (List.mem_cons_self x xs))
    rcases (by simpa [cumprodAux] using he :
        e = a * x ∨ e ∈ cumprodAux (a * x) xs) with h | h
    · exact h ▸ hax
    · exact cumprodAux_mem_nonneg xs (a * x) hax
        (fun y hy => hl y (List.mem_cons_of_mem x hy)) e h

lemma cumprodAux_mem_pos : ∀ (l : List ℚ) (a : ℚ), 0 < a → (∀ x ∈ l, 0 < x) →
    ∀ e ∈ cumprodAux a l, 0 < e
  | [], _, _, _, e, he => by simp [cumprodAux] at he
  | x :: xs, a, ha, hl, e, he => by
    have hax : 0 < a * x := mul_pos ha (hl x (List.mem_cons_self x xs))
    rcases (by simpa [cumprodAux] using he :
        e = a * x ∨ e ∈ cumprodAux (a * x) xs) with h | h
    · exact h ▸ hax
    · exact cumprodAux_mem_pos xs (a * x) hax
        (fun y hy => hl y (List.mem_cons_of_mem x hy)) e h

lemma factor_nonneg {r f : ℚ} (hr : -1 ≤ r) (hf0 : 0 < f) (hf1 : f ≤ 1) :
    0 ≤ 1 + r * f := by
  nlinarith [mul_nonneg (by linarith : (0 : ℚ) ≤ r + 1) hf0.le]

lemma factor_pos {r f : ℚ} (hr : -1 ≤ r) (hf0 : 0 < f) (hf1 : f < 1) :
    0 < 1 + r * f := by
  nlinarith [mul_nonneg (by linarith : (0 : ℚ) ≤ r + 1) hf0.le]

lemma equity_mem_nonneg {sampled : List ℚ} {f : ℚ} (hr : ∀ r ∈ sampled, -1 ≤ r)
    (hf0 : 0 < f) (hf1 : f ≤ 1) : ∀ e ∈ equity sampled f, 0 ≤ e := by
  intro e he
  refine cumprodAux_mem_nonneg _ 1 (by norm_num) ?_ e he
  intro x hx
  rcases List.mem_map.mp hx with ⟨r, hrm, rfl⟩
  exact factor_nonneg (hr r hrm) hf0 hf1

lemma equity_mem_pos {sampled : List ℚ} {f : ℚ} (hr : ∀ r ∈ sampled, -1 ≤ r)
    (hf0 : 0 < f) (hf1 : f < 1) : ∀ e ∈ equity sampled f, 0 < e := by
  intro e he
  refine cumprodAux_mem_pos _ 1 (by norm_num) ?_ e he
  intro x hx
  rcases List.mem_map.mp hx with ⟨r, hrm, rfl⟩
  exact factor_pos (hr r hrm) hf0 hf1

lemma getD_mem_of_lt : ∀ (l : List ℚ) (n : Nat), n < l.length → l.getD n 0 ∈ l
  | x :: xs, 0, _ => by simp
  | x :: xs, n + 1, h => by
    simp only [List.getD_cons_succ]
    exact List.mem_cons_of_mem x (getD_mem_of_lt xs n (by simpa using h))

lemma rngChoice_length (returns : List ℚ) :
    ∀ (k s : Nat), ((rngChoice returns k s).1).length = k
  | 0, _ => rfl
  | k + 1, s => by simp [rngChoice, rngChoice_length returns k]

lemma rngChoice_mem (returns : List ℚ) (hne : returns ≠ []) :
    ∀ (k s : Nat), ∀ x ∈ (rngChoice returns k s).1, x ∈ returns
  | 0, s, x, hx => by simp [rngChoice] at hx
  | k + 1, s, x, hx => by
    have hlen : 0 < returns.length := List.length_pos.mpr hne
    rcases (by simpa [rngChoice] using hx :
        x = returns.getD (rngNext s % returns.length) 0 ∨
          x ∈ (rngChoice returns k (rngNext s)).1) with h | h
    · exact h ▸ getD_mem_of_lt returns _ (Nat.mod_lt _ hlen)
    · exact rngChoice_mem returns hne k (rngNext s) x h

lemma drawdown_entry_bounds : ∀ (l : List ℚ) (m : ℚ), (∀ e ∈ l, 0 ≤ e) →
    ∀ x ∈ List.zipWith ddStep (runMaxAux m l) l, ∀ v, x = some v → 0 ≤ v ∧ v ≤ 1
  | [], _, _, x, hx => by simp [runMaxAux] at hx
  | y :: ys, m, hl, x, hx => by
    have hy : 0 ≤ y := hl y (List.mem_cons_self y ys)
    rcases (by simpa [runMaxAux] using hx :
        x = ddStep (max m y) y ∨
          x ∈ List.zipWith ddStep (runMaxAux (max m y) ys) ys) with h | h
    · intro v hv
      subst h
      unfold ddStep at hv
      by_cases h0 : max m y = 0
      · simp [h0] at hv
      · simp [h0] at hv
        subst hv
        have hmy : y ≤ max m y := le_max_right m y
        have hpos : 0 < max m y := lt_of_le_of_ne (le_trans hy hmy) (Ne.symm h0)
        constructor
        · exact div_nonneg (by linarith) hpos.le
        · rw [div_le_one hpos]; linarith
    · exact drawdown_entry_bounds ys (max m y)
        (fun e he => hl e (List.mem_cons_of_mem y he)) x h

lemma drawdown_entry_defined : ∀ (l : List ℚ) (m : ℚ), (∀ e ∈ l, 0 < e) →
    ∀ x ∈ List.zipWith ddStep (runMaxAux m l) l, ∃ v, x = some v
  | [], _, _, x, hx => by simp [runMaxAux] at hx
  | y :: ys, m, hl, x, hx => by
    have hy : 0 < y := hl y (List.mem_cons_self y ys)
    rcases (by simpa [runMaxAux] using hx :
        x = ddStep (max m y) y ∨
          x ∈ List.zipWith ddStep (runMaxAux (max m y) ys) ys) with h | h
    · have hpos : 0 < max m y := lt_of_lt_of_le hy (le_max_right m y)
      exact ⟨(max m y - y) / max m y, by simp [h, ddStep, hpos.ne']⟩
    · exact drawdown_entry_defined ys (max m y)
        (fun e he => hl e (List.mem_cons_of_mem y he)) x h

lemma drawdown_mem_bounds {curve : List ℚ} (hc : ∀ e ∈ curve, 0 ≤ e) :
    ∀ x ∈ drawdown curve, ∀ v, x = some v → 0 ≤ v ∧ v ≤ 1 := by
  cases curve with
  | nil => intro x hx; simp [drawdown, running_max] at hx
  | cons c cs =>
    intro x hx
    exact drawdown_entry_bounds (c :: cs) c hc x
      (by simpa [drawdown, running_max] using hx)

lemma drawdown_mem_defined {curve : List ℚ} (hc : ∀ e ∈ curve, 0 < e) :
    ∀ x ∈ drawdown curve, ∃ v, x = some v := by
  cases curve with
  | nil => intro x hx; simp [drawdown, running_max] at hx
  | cons c cs =>
    intro x hx
    exact drawdown_entry_defined (c :: cs) c hc x
      (by simpa [drawdown, running_max] using hx)

lemma foldl_combineMax_bound (lo hi : ℚ) :
    ∀ (l : List (Option ℚ)) (acc : Option ℚ),
      (∀ v, acc = some v → lo ≤ v ∧ v ≤ hi) →
      (∀ x ∈ l, ∀ v, x = some v → lo ≤ v ∧ v ≤ hi) →
      ∀ d, List.foldl combineMax acc l = some d → lo ≤ d ∧ d ≤ hi
  | [], acc, hacc, _, d, hd => hacc d hd
  | x :: xs, acc, hacc, hl, d, hd => by
    refine foldl_combineMax_bound lo hi xs (combineMax acc x) ?_
      (fun y hy => hl y (List.mem_cons_of_mem x hy)) d (by simpa using hd)
    intro v hv
    cases acc with
    | none => simp [combineMax] at hv
    | some a =>
      cases x with
      | none => simp [combineMax] at hv
      | some b =>
        simp [combineMax] at hv
        subst hv
        rcases hacc a rfl with ⟨ha1, ha2⟩
        rcases hl (some b) (List.mem_cons_self _ _) b rfl with ⟨hb1, hb2⟩
        exact ⟨le_trans ha1 (le_max_left a b), max_le ha2 hb2⟩

lemma npMax_bound (lo hi : ℚ) (l : List (Option ℚ))
    (h : ∀ x ∈ l, ∀ v, x = some v → lo ≤ v ∧ v ≤ hi) :
    ∀ d, npMax l = some d → lo ≤ d ∧ d ≤ hi := by
  cases l with
  | nil => intro d hd; simp [npMax] at hd
  | cons x xs =>
    intro d hd
    simp only [npMax] at hd
    exact foldl_combineMax_bound lo hi xs x (h x (List.mem_cons_self x xs))
      (fun y hy => h y (List.mem_cons_of_mem x hy)) d hd

lemma runTrials_mem_length (returns : List ℚ) (n : Nat) (f : ℚ) :
    ∀ (B s : Nat), ∀ t ∈ (runTrials returns n f B s).1, t.length = n
  | 0, s, t, ht => by simp [runTrials] at ht
  | B + 1, s, t, ht => by
    rcases (by simpa [runTrials] using ht :
        t = equity (rngChoice returns n s).1 f ∨
          t ∈ (runTrials returns n f B (rngChoice returns n s).2).1) with h | h
    · rw [h, equity_length, rngChoice_length]
    · exact runTrials_mem_length returns n f B (rngChoice returns n s).2 t h

lemma runTrials_take (returns : List ℚ) (n : Nat) (f : ℚ) :
    ∀ (k B s : Nat), k ≤ B →
      ((runTrials returns n f B s).1).take k = (runTrials returns n f k s).1
  | 0, B, s, _ => by simp [runTrials]
  | k + 1, B, s, hk => by
    cases B with
    | zero => exact absurd hk (by omega)
    | succ b =>
      simp only [runTrials, List.take_succ_cons]
      rw [runTrials_take returns n f k b _ (by omega)]

/-! ## Claim theorems -/

/-- C1 (amended): for every trial, the equity trajectory is the running
product of `(1 + drawn_i * stakeFraction)` applied to an initial equity of
1.0; for the sample `[-1, 1]` with stakeFraction `0.5` the trajectory is
`[0.5, 0.75]` (the gain step multiplies by 1.5, not 2), the max drawdown is
`0` (the running max is seeded with the first trajectory value, so the
initial decline from 1.0 is not counted), and the final return is `-0.25`. -/
theorem trajectory_running_product :
    (∀ (sampled : List ℚ) (f : ℚ) (i : Nat) (h : i < (equity sampled f).length),
        (equity sampled f).get ⟨i, h⟩ =
          ((sampled.take (i + 1)).map (fun r => 1 + r * f)).prod) ∧
    equity [-1, 1] (1 / 2) = [1 / 2, 3 / 4] ∧
    max_drawdown [-1, 1] (1 / 2) = some 0 ∧
    final_return (equity [-1, 1] (1 / 2)) = -(1 / 4) := by
  refine ⟨?_, ?_, ?_, ?_⟩
  · intro sampled f i h
    have hg := cumprodAux_get (sampled.map (fun r => 1 + r * f)) 1 i
      (by simpa [equity] using h)
    simpa [equity, List.map_take] using hg
  · simp [equity, cumprodAux]; norm_num
  · simp [max_drawdown, npMax, drawdown, equity, cumprodAux, running_max, runMaxAux,
      ddStep, combineMax]
    norm_num
  · simp [final_return, equity, cumprodAux]; norm_num

theorem trajectory_running_product_witness :
    (equity [(2 : ℚ)] 1).get ⟨0, by simp [equity_length]⟩ =
      (([(2 : ℚ)].take 1).map (fun r => 1 + r * 1)).prod :=
  trajectory_running_product.1 [(2 : ℚ)] 1 0 (by simp [equity_length])

/-- C1 counterexample: the claimed scenario values for the draw `[-1, 1]`
at stakeFraction `0.5` are not what the code computes — the trajectory is
`[0.5, 0.75]`, not `[0.5, 1.0]`. -/
theorem scenario_trajectory_cex :
    equity [-1, 1] (1 / 2) = [1 / 2, 3 / 4] ∧
    ¬(equity [-1, 1] (1 / 2) = [1 / 2, 1] ∧
      max_drawdown [-1, 1] (1 / 2) = some (1 / 2) ∧
      final_return (equity [-1, 1] (1 / 2)) = 0) := by
  have h2 : equity [-1, 1] (1 / 2) = [1 / 2, 3 / 4] := by
    simp [equity, cumprodAux]; norm_num
  refine ⟨h2, ?_⟩
  rintro ⟨h1, -, -⟩
  rw [h2] at h1
  norm_num at h1

/-- C2 (amended): over a return sample with all values ≥ -1 and a stake
fraction in (0, 1], whenever the recorded maximum drawdown is a number
(it is NaN exactly when stakeFraction = 1 and the first draw is -1, where
the code computes 0/0), it satisfies `0 ≤ maxDrawdown ≤ 1`. -/
theorem max_drawdown_bounds (sampled : List ℚ) (f : ℚ) (hr : ∀ r ∈ sampled, -1 ≤ r)
    (hf0 : 0 < f) (hf1 : f ≤ 1) (d : ℚ) (hd : max_drawdown sampled f = some d) :
    0 ≤ d ∧ d ≤ 1 :=
  npMax_bound 0 1 (drawdown (equity sampled f))
    (drawdown_mem_bounds (equity_mem_nonneg hr hf0 hf1)) d hd

theorem max_drawdown_bounds_witness : 0 ≤ (0 : ℚ) ∧ (0 : ℚ) ≤ 1 :=
  max_drawdown_bounds [1] (1 / 2) (by norm_num) (by norm_num) (by norm_num) 0
    (by simp [max_drawdown, npMax, drawdown, equity, cumprodAux, running_max, runMaxAux,
        ddStep, combineMax]
        norm_num)

/-- C2 counterexample: with the sample `[-1]` (all values ≥ -1) and stake
fraction 1 (in (0, 1]), the recorded maximum drawdown is NaN (`none`), so
`0 ≤ maxDrawdown ≤ 1` fails. -/
theorem max_drawdown_bounds_cex :
    (∀ r ∈ [(-1 : ℚ)], -1 ≤ r) ∧ 0 < (1 : ℚ) ∧ (1 : ℚ) ≤ 1 ∧
    ¬∃ d : ℚ, max_drawdown [-1] 1 = some d ∧ 0 ≤ d ∧ d ≤ 1 := by
  refine ⟨by norm_num, by norm_num, le_refl 1, ?_⟩
  rintro ⟨d, hd, -, -⟩
  have h : max_drawdown [-1] 1 = none := by
    simp [max_drawdown, npMax, drawdown, equity, cumprodAux, running_max, runMaxAux, ddStep]
  rw [h] at hd
  exact Option.noConfusion hd

/-- C3 (amended): when stakeFraction < 1 every equity value is strictly
positive, so every per-step drawdown is a well-defined quotient and no
division by zero occurs; but when stakeFraction = 1 and the first draw is
-1 the running max is 0 and the code computes 0/0 (NaN) — no drawdown = 0
convention is applied. -/
theorem drawdown_division_safety :
    (∀ (sampled : List ℚ) (f : ℚ), (∀ r ∈ sampled, -1 ≤ r) → 0 < f → f < 1 →
        ∀ x ∈ drawdown (equity sampled f), ∃ v, x = some v) ∧
    drawdown (equity [-1] 1) = [none] := by
  constructor
  · intro sampled f hr hf0 hf1 x hx
    exact drawdown_mem_defined (equity_mem_pos hr hf0 hf1) x hx
  · simp [drawdown, equity, cumprodAux, running_max, runMaxAux, ddStep]

theorem drawdown_division_safety_witness : ∃ v : ℚ, (some (0 : ℚ) : Option ℚ) = some v :=
  drawdown_division_safety.1 [(-1 : ℚ)] (1 / 2) (by norm_num) (by norm_num) (by norm_num)
    (some 0)
    (by simp [drawdown, equity, cumprodAux, running_max, runMaxAux, ddStep]; norm_num)

/-- C3 counterexample: at stakeFraction 1 with first draw -1 the running
max is exactly 0 and the code's drawdown entry is 0/0 (NaN, modelled as
`none`) — not the claimed 0-by-convention. -/
theorem drawdown_zero_convention_cex :
    running_max (equity [-1] 1) = [0] ∧
    drawdown (equity [-1] 1) = [none] ∧
    drawdown (equity [-1] 1) ≠ [some 0] := by
  have h : drawdown (equity [-1] 1) = [none] := by
    simp [drawdown, equity, cumprodAux, running_max, runMaxAux, ddStep]
  refine ⟨?_, h, ?_⟩
  · simp [running_max, equity, cumprodAux, runMaxAux]
  · intro hcontra
    rw [h] at hcontra
    simp at hcontra

/-- C4: with fewer than 100 return values (including the empty sample) the
analysis stops at the entry guard with the insufficient-data outcome,
before any simulation work (draws, trajectories, percentiles) happens. -/
theorem insufficient_data_guard (rows : List ℚ) (h : rows.length < 100) :
    analysis_8_monte_carlo_kelly rows = AnalysisOutcome.insufficientData := by
  simp [analysis_8_monte_carlo_kelly, h]

theorem insufficient_data_guard_witness :
    analysis_8_monte_carlo_kelly [] = AnalysisOutcome.insufficientData :=
  insufficient_data_guard [] (by simp)

/-- C5: `simulateBatch` is deterministic — two calls with identical return
sample, trial count, batch size, stake fraction and seed produce identical
summary output. -/
theorem simulateBatch_deterministic (r₁ r₂ : List ℚ) (T₁ T₂ B₁ B₂ : Nat) (f₁ f₂ : ℚ)
    (s₁ s₂ : Nat) (hr : r₁ = r₂) (hT : T₁ = T₂) (hB : B₁ = B₂) (hf : f₁ = f₂)
    (hs : s₁ = s₂) :
    simulateBatch r₁ T₁ B₁ f₁ s₁ = simulateBatch r₂ T₂ B₂ f₂ s₂ := by
  rw [hr, hT, hB, hf, hs]

theorem simulateBatch_deterministic_witness :
    simulateBatch [1] 1 1 (1 / 20) 42 = simulateBatch [1] 1 1 (1 / 20) 42 :=
  simulateBatch_deterministic [1] [1] 1 1 1 1 (1 / 20) (1 / 20) 42 42 rfl rfl rfl rfl rfl

/-- C6: every value drawn by the bootstrap resampling is an exact element
of the input return sample. -/
theorem bootstrap_support (returns : List ℚ) (hne : returns ≠ []) (k s : Nat) :
    ∀ x ∈ (rngChoice returns k s).1, x ∈ returns :=
  rngChoice_mem returns hne k s

theorem bootstrap_support_witness : (7 : ℚ) ∈ [(7 : ℚ)] :=
  bootstrap_support [7] (by simp) 1 0 7 (by norm_num [rngChoice, rngNext])

/-- C7: with all sample values ≥ -1 and stakeFraction in (0, 1], every
trajectory step has equity ≥ 0, and strictly positive equity whenever
stakeFraction < 1. -/
theorem equity_positivity (sampled : List ℚ) (f : ℚ) (hr : ∀ r ∈ sampled, -1 ≤ r)
    (hf0 : 0 < f) (hf1 : f ≤ 1) :
    (∀ e ∈ equity sampled f, 0 ≤ e) ∧ (f < 1 → ∀ e ∈ equity sampled f, 0 < e) :=
  ⟨equity_mem_nonneg hr hf0 hf1, fun hlt => equity_mem_pos hr hf0 hlt⟩

theorem equity_positivity_witness : (0 : ℚ) ≤ 1 / 2 :=
  (equity_positivity [-1] (1 / 2) (by norm_num) (by norm_num) (by norm_num)).1 (1 / 2)
    (by simp [equity, cumprodAux]; norm_num)

/-- C8: every simulated trajectory has length `min 200 |returns|` — the
per-trajectory draw count is capped at the smaller of the fixed ceiling
200 and the sample size. -/
theorem trajectory_length (returns : List ℚ) (f : ℚ) (s B : Nat) :
    ∀ t ∈ (runTrials returns (n_trades_per_sim returns) f B s).1,
      t.length = min 200 returns.length :=
  runTrials_mem_length returns (n_trades_per_sim returns) f B s

theorem trajectory_length_witness :
    ([(21 : ℚ) / 20]).length = min 200 ([(1 : ℚ)]).length :=
  trajectory_length [1] (1 / 20) (rngInit 42) 1 [(21 : ℚ) / 20]
    (by norm_num [runTrials, rngChoice, rngNext, rngInit, equity, cumprodAux,
      n_trades_per_sim])

/-- C9: `sweepStakeFraction` produces exactly one summary row per input
fraction, and the rows carry the fractions in the input order. -/
theorem sweep_ordering (returns : List ℚ) (n B : Nat) (fracs : List ℚ) (s : Nat) :
    (sweepStakeFraction returns n B fracs s).map FractionSummary.fraction = fracs := by
  induction fracs generalizing s with
  | nil => rfl
  | cons kf rest ih => simp [sweepStakeFraction, ih]

/-- C10: the 50 sample equity curves recomputed for the JSON export with a
fresh generator seeded with 42 are identical (before display rounding) to
the trajectories of the first 50 trials of the main 5000-trial batch,
because re-seeding reproduces the same draw sequence. -/
theorem export_curves_match_first_trials (returns : List ℚ) :
    equity_curves_export returns = (main_batch_curves returns).take 50 := by
  unfold equity_curves_export main_batch_curves
  exact (runTrials_take returns (n_trades_per_sim returns) (1 / 20) 50 5000 (rngInit 42)
    (by norm_num)).symm

end MonteCarloKelly
